import Mathlib

/-!
Verification of the SelfHealingProtocol scheduler core.

This file gives a shallow embedding, in Lean 4, of the parts of the C
sources that the checked properties talk about:

* the patch engine's occupied-interval linked list and greedy allocator
  (`insert_fixed_trans`, `allocate_offset_patch`, `prepare_fixed_traffic`,
  `allocate_patch_traffic` callers) from `Scheduler.c`;
* the offset-graph builders (`init_offsets`, `init_offset_reservation`)
  from `Frame.c`;
* the frame timing setters (`set_deadline`, `set_starting_time`,
  `set_end_to_end`) from `Frame.c`;
* the time-model preparation (`prepare_network`, `gcd`) from `Network.c`;
* the MILP variable/constraint generators (`create_offsets_variables`,
  `end_to_end_delay`, `add_fixed_traffic`) and the verifier collision
  checks (`check_schedule`) from `Scheduler.c`.

Linked lists of C structs are modelled as Lean `List`s; in-place mutation
is modelled by returning the updated value; the solver backend is modelled
by recording each created variable's data (its bounds) and each emitted
constraint's data instead of handing them to the solver.  C `long long int`
arithmetic is modelled on `Int` (no quantity here approaches overflow) and
positive byte/speed arithmetic on `Nat`, whose division is the same
floor division the C code performs on positive operands.
-/

namespace SHPScheduler

/-- One node of the `LS_Transmission` singly linked list of `Scheduler.c`:
an occupied interval on the patched link with fields `starting` and
`ending`. -/
structure LSTrans where
  starting : Int
  ending : Int
deriving DecidableEq, Repr

/-- `insert_fixed_trans` of `Scheduler.c`: sorted insertion of the interval
`(transmission_time, ending_time)` into the occupied list, walking past the
nodes whose `starting` is `<=` the new one. -/
def insert_fixed_trans (head : List LSTrans) (transmission_time ending_time : Int) :
    List LSTrans :=
  match head with
  | [] => [⟨transmission_time, ending_time⟩]
  | node :: rest =>
    if node.starting ≤ transmission_time then
      node :: insert_fixed_trans rest transmission_time ending_time
    else
      ⟨transmission_time, ending_time⟩ :: node :: rest

/-- The walk of `allocate_offset_patch` over a non-empty occupied list.
The candidate interval is `[s, s + time_slots - 1]`.  For each node: if the
candidate ends before the node starts it is inserted there; otherwise, when
the node's `ending > min`, the candidate start moves to `ending + 1` and the
walk fails when that start exceeds `max`; nodes with `ending ≤ min` are
walked past without moving the candidate.  Returns the updated list and the
final candidate start. -/
def allocLoop (time_slots minv maxv : Int) (s : Int) :
    List LSTrans → Option (List LSTrans × Int)
  | [] => some ([⟨s, s + time_slots - 1⟩], s)
  | node :: rest =>
    if s + time_slots - 1 < node.starting then
      some (⟨s, s + time_slots - 1⟩ :: node :: rest, s)
    else
      if node.ending > minv then
        if node.ending + 1 > maxv then
          none
        else
          (allocLoop time_slots minv maxv (node.ending + 1) rest).map
            (fun p => (node :: p.1, p.2))
      else
        (allocLoop time_slots minv maxv s rest).map
          (fun p => (node :: p.1, p.2))

/-- `allocate_offset_patch` of `Scheduler.c`.  `cells` is the offset matrix
row of the frame being patched (`offset[instance][0]`), modelled as a total
map from instance number to value.  When the incoming `head` is the null
list the new block `[min, min + time_slots - 1]` becomes the head and the
offset matrix is not written (the `set_trans_time` call sits in the other
branch of the C function); otherwise the walk runs and, on success, the
accepted start is recorded into the matrix at `inst`. -/
def allocate_offset_patch (cells : Nat → Int) (inst : Nat)
    (head : List LSTrans) (minv maxv : Int) (time_slots : Int) :
    Option (List LSTrans × (Nat → Int)) :=
  if head = [] then
    some ([⟨minv, minv + time_slots - 1⟩], cells)
  else
    match allocLoop time_slots minv maxv minv head with
    | none => none
    | some (l, s) => some (l, Function.update cells inst s)

/-- `prepare_fixed_traffic` of `Scheduler.c`.  Each fixed frame is a pair of
its transmission duration in timeslots and the list of its per-instance
transmission times; every instance inserts `(t, t + time_slots)` into the
occupied list.  Afterwards the Self-Healing Protocol reservation inserts
`(k * period, k * period + time)` for `k < hyperperiod / period`; the C code
performs this division with no guard, so the model returns `none` when
`period = 0` (the division would be undefined). -/
def prepare_fixed_traffic (fixed : List (Int × List Int))
    (hyperperiod period time : Int) : Option (List LSTrans) :=
  let afterFixed :=
    fixed.foldl
      (fun acc fr =>
        fr.2.foldl (fun l t => insert_fixed_trans l t (t + fr.1)) acc)
      []
  if period = 0 then
    none
  else
    some (((List.range (hyperperiod / period).toNat).foldl
      (fun l k => insert_fixed_trans l (period * k) (period * k + time))
      afterFixed))

/-- A solver variable as recorded from the backend calls: its lower and
upper bound (`GRBaddvar` arguments `lb`, `ub`). -/
structure GVar where
  lb : Int
  ub : Int
deriving DecidableEq, Repr

/-- `add_fixed_traffic` of `Scheduler.c` (optimize pre-population): one
pinned variable `lb = ub = transmission time` per fixed-frame instance, then
one pinned variable `lb = ub = period * k` per Self-Healing Protocol
instance `k < hyperperiod / period`.  As in `prepare_fixed_traffic` the C
code divides by the protocol period with no guard, so the model returns
`none` when `period = 0`. -/
def add_fixed_traffic (fixed : List (List Int)) (hyperperiod period : Int) :
    Option (List GVar) :=
  let frameVars := fixed.flatMap (fun instants => instants.map (fun t => GVar.mk t t))
  if period = 0 then
    none
  else
    some (frameVars ++
      (List.range (hyperperiod / period).toNat).map
        (fun k => GVar.mk (period * k) (period * k)))

/-- The collision test `check_schedule` of `Scheduler.c` applies between the
transmissions of two different normal frames on the same link: with
`end_time = trans_time + off_time - 1` and
`end_time2 = pre_trans_time + pre_off_time - 1`, a collision is reported
when `pre_trans_time < end_time` and `trans_time < end_time2`. -/
def frame_collision_check (trans_time off_time pre_trans_time pre_off_time : Int) :
    Bool :=
  let end_time := trans_time + off_time - 1
  let end_time2 := pre_trans_time + pre_off_time - 1
  decide (pre_trans_time < end_time) && decide (trans_time < end_time2)

/-- The collision test `check_schedule` of `Scheduler.c` applies between a
normal frame's transmission and a Self-Healing Protocol reservation
instance: the code computes `end_time = get_off_time(off) + get_off_time(off)`
(the frame's duration added to itself) and
`end_time2 = prot_trans_time + prot_off_time`, reporting a collision when
`prot_trans_time < end_time` and `trans_time < end_time2`. -/
def protocol_collision_check (trans_time off_time prot_trans_time prot_off_time : Int) :
    Bool :=
  let end_time := off_time + off_time
  let end_time2 := prot_trans_time + prot_off_time
  decide (prot_trans_time < end_time) && decide (trans_time < end_time2)

/-- Intersection of the half-open intervals `[t, t + d)` and `[u, u + e)`,
written from the specification's overlap convention for comparison with the
verifier's checks. -/
def half_open_overlap (t d u e : Int) : Bool :=
  decide (u < t + d) && decide (t < u + e)

/-- The timing fields of the `Frame` struct of `Frame.c` that the setters
manipulate. -/
structure Frame where
  size : Int
  period : Int
  deadline : Int
  starting : Int
  end_to_end_delay : Int
deriving DecidableEq, Repr

/-- `set_deadline` of `Frame.c`: rejects a negative deadline, rejects a
deadline larger than the period, maps a zero deadline to the period, and
stores the value otherwise.  The returned `Bool` is the success flag; on
failure the frame is returned unmodified (the C function returns `-1`
before writing the field). -/
def set_deadline (f : Frame) (deadline : Int) : Frame × Bool :=
  if deadline < 0 then
    (f, false)
  else if deadline > f.period then
    (f, false)
  else if deadline = 0 then
    ({ f with deadline := f.period }, true)
  else
    ({ f with deadline := deadline }, true)

/-- `set_starting_time` of `Frame.c`: rejects a negative starting time and a
starting time at or beyond the deadline; on failure the frame is
unmodified. -/
def set_starting_time (f : Frame) (starting_time : Int) : Frame × Bool :=
  if starting_time < 0 then
    (f, false)
  else if starting_time ≥ f.deadline then
    (f, false)
  else
    ({ f with starting := starting_time }, true)

/-- `set_end_to_end` of `Frame.c`: rejects a negative end-to-end bound and a
bound at or beyond the deadline; on failure the frame is unmodified. -/
def set_end_to_end (f : Frame) (end_to_end : Int) : Frame × Bool :=
  if end_to_end < 0 then
    (f, false)
  else if end_to_end ≥ f.deadline then
    (f, false)
  else
    ({ f with end_to_end_delay := end_to_end }, true)

/-- The subtractive `gcd` helper of `Network.c`.  It returns `0` when either
argument is `0` (unlike the mathematical gcd) and otherwise repeatedly
subtracts the smaller argument from the larger. -/
def cgcd (a b : Nat) : Nat :=
  if a = 0 ∨ b = 0 then 0
  else if a = b then a
  else if a > b then cgcd (a - b) b
  else cgcd a (b - a)
termination_by a + b
decreasing_by
  · omega
  · omega

/-- The raw per-(frame, link) transmission duration of `prepare_network`
(`Network.c`): `(size * 1000) / speed` nanoseconds with the C integer
division, forced to at least `1`. -/
def time_frame (size speed : Nat) : Nat :=
  let t := size * 1000 / speed
  if t = 0 then 1 else t

/-- The specification's formula for the raw transmission duration,
`(size * 8 * 10^3) / speed`, written from the spec's words for comparison
with `time_frame`. -/
def spec_raw_duration (size speed : Nat) : Nat :=
  size * 8 * 1000 / speed

/-- The timeslot computation of `prepare_network` (`Network.c`):
`size_timeslot` starts at the Self-Healing Protocol duration when the
protocol is active (`prepare_healing_protocol` stores it) and at `0`
otherwise; each (frame, link) pair folds its `time_frame` into it, taking
the value directly when the running slot is `0` and the `gcd` otherwise;
preparation fails (returns `-1`) when the resulting slot is `0`. -/
def prepare_network_timeslot (shp_period shp_time : Nat)
    (pairs : List (Nat × Nat)) : Option Nat :=
  let init := if shp_period ≠ 0 then shp_time else 0
  let ts := pairs.foldl
    (fun acc p =>
      let t := time_frame p.1 p.2
      if acc = 0 then t else cgcd acc t)
    init
  if ts = 0 then none else some ts

/-- The `Offset` struct of `Frame.h`: all (instance, replica) cells for one
(frame, link) pair.  The matrices are modelled as total maps whose entries
at indices below `num_instances` and `num_replicas` are the ones the C code
allocates and writes. -/
structure Offset where
  link_id : Nat
  num_instances : Nat
  num_replicas : Nat
  time : Int
  offset : Nat → Nat → Int
  var_num : Nat → Nat → Int

/-- A fresh offset object as `init_offsets` of `Frame.c` builds it: one
replica, transmission duration still unset (`-1`), and every `offset` and
`var_num` cell set to `-1`. -/
def new_offset (link_id instances : Nat) : Offset where
  link_id := link_id
  num_instances := instances
  num_replicas := 1
  time := -1
  offset := fun _ _ => -1
  var_num := fun _ _ => -1

/-- The per-frame offset containers built by `init_offsets`: the iteration
list `offset_it` owns the offset objects (the C list of pointers becomes a
list of objects, and a reference to an object is its index in this list),
and the sparse lookup `offset_hash` maps a link id to the index of that
link's object when it exists. -/
structure FrameOffsets where
  offset_it : List Offset
  offset_hash : Nat → Option Nat

/-- Processing of one link id of one path inside `init_offsets`
(`Frame.c`): when the hash has no object for the link, a fresh offset
object is created, appended to the iteration list and registered in the
hash; the path position then references the object found in the hash. -/
def init_offsets_step (instances : Nat) (st : FrameOffsets) (link_id : Nat) :
    FrameOffsets × Nat :=
  match st.offset_hash link_id with
  | some idx => (st, idx)
  | none =>
    let idx := st.offset_it.length
    (⟨st.offset_it ++ [new_offset link_id instances],
      fun l => if l = link_id then some idx else st.offset_hash l⟩, idx)

/-- Processing of one whole path inside `init_offsets`: fold over the
path's link ids, collecting the reference stored at each path position
(`list_offsets` in the C struct). -/
def init_offsets_path (instances : Nat) (st : FrameOffsets) (path : List Nat) :
    FrameOffsets × List Nat :=
  path.foldl
    (fun acc link_id =>
      let next := init_offsets_step instances acc.1 link_id
      (next.1, acc.2 ++ [next.2]))
    (st, [])

/-- `init_offsets` of `Frame.c` for a frame with the given receiver paths:
starting from an empty hash and an empty iteration list, process every path
in order; `instances = hyperperiod / period`.  Returns the final containers
together with each path's list of references. -/
def init_offsets_go (instances : Nat) (st : FrameOffsets)
    (paths : List (List Nat)) : FrameOffsets × List (List Nat) :=
  paths.foldl
    (fun acc path =>
      let next := init_offsets_path instances acc.1 path
      (next.1, acc.2 ++ [next.2]))
    (st, [])

/-- See `init_offsets_go`: the whole builder starts from an empty hash and
an empty iteration list. -/
def init_offsets (paths : List (List Nat)) (hyperperiod period : Int) :
    FrameOffsets × List (List Nat) :=
  init_offsets_go (hyperperiod / period).toNat ⟨[], fun _ => none⟩ paths

/-- The value left in an `offset` cell of the reservation frame by
`init_offset_reservation` (`Frame.c`): the loop body stores
`period * inst` into `offset[inst][0]` and then immediately stores `-1`
into the same cell on the next line, so the second store wins. -/
def reservation_cell (period : Int) (inst : Nat) : Int :=
  let firstStore := period * (inst : Int)
  let secondStore := (-1 : Int)
  let _ := firstStore
  secondStore

/-- `init_offset_reservation` of `Frame.c`: one offset object per link id
in `[0, max_link_id]`, each with `instances = hyperperiod / period`
instances, one replica, duration `size` (the Self-Healing Protocol
reservation duration stored by `prepare_healing_protocol` through
`set_size`), and each `offset[inst][0]` cell holding `reservation_cell`.
The `var_num` matrix is allocated but never written by the C code, so the
model takes its contents as the arbitrary map `uninit`. -/
def init_offset_reservation (max_link_id : Nat) (hyperperiod period size : Int)
    (uninit : Nat → Nat → Int) : List Offset :=
  (List.range (max_link_id + 1)).map
    (fun i =>
      { link_id := i
        num_instances := (hyperperiod / period).toNat
        num_replicas := 1
        time := size
        offset := fun inst _ => reservation_cell period inst
        var_num := uninit })

/-- What `create_offsets_variables` reads from one offset object of a
frame: its transmission duration and matrix extents. -/
structure OffSpec where
  time : Int
  num_instances : Nat
  num_replicas : Nat
deriving DecidableEq, Repr

/-- What `create_offsets_variables` reads from one normal frame: its timing
fields and its iterated offset objects. -/
structure FrameVars where
  frame : Frame
  offsets : List OffSpec

/-- The bounds computed by the loop body of `create_offsets_variables`
(`Scheduler.c`) for one (frame, offset, instance, replica):
`lb = starting + (inst * period) + (repl * time)` and
`ub = deadline - time + (period * inst) - (repl * time)`. -/
def offs_var (f : Frame) (off : OffSpec) (inst repl : Nat) : GVar where
  lb := f.starting + ((inst : Int) * f.period) + ((repl : Int) * off.time)
  ub := f.deadline - off.time + (f.period * (inst : Int)) - ((repl : Int) * off.time)

/-- The normal-frame part of `create_offsets_variables` (`Scheduler.c`):
for every frame, every offset object, every instance and every replica one
integer solver variable is created with the `offs_var` bounds.  The result
nests the created variables as frame / offset / instance / replica. -/
def create_offsets_variables (frames : List FrameVars) :
    List (List (List (List GVar))) :=
  frames.map
    (fun fv =>
      fv.offsets.map
        (fun off =>
          (List.range off.num_instances).map
            (fun inst =>
              (List.range off.num_replicas).map
                (offs_var fv.frame off inst))))

/-- The Self-Healing Protocol part of `create_offsets_variables`
(`Scheduler.c`): when the protocol is active (`period ≠ 0`) and
`do_protocol = 1`, every reservation offset contributes one variable per
instance pinned by `lb = ub = inst * period` (the reservation frame's
period); the same `value` is also written back into the reservation's
transmission-time cell by `set_trans_time`.  `offsets` lists the instance
count of each reservation offset object; `shp_var` is the pinned variable
of one instance. -/
def shp_var (reservation_period : Int) (inst : Nat) : GVar where
  lb := (inst : Int) * reservation_period
  ub := (inst : Int) * reservation_period

/-- See `create_offsets_variables_shp`. -/
def create_offsets_variables_shp (shp_period : Int) (do_protocol : Bool)
    (reservation_period : Int) (offsets : List Nat) : List (List GVar) :=
  if shp_period ≠ 0 ∧ do_protocol = true then
    offsets.map (fun n => (List.range n).map (shp_var reservation_period))
  else []

/-- The three constraint shapes emitted per (frame, path, instance) by
`end_to_end_delay` (`Scheduler.c`), named after the C constraint names
`End_n_1`, `End_n_2` and `End_n_3`. -/
inductive EndCKind where
  | end1
  | end2
  | end3
deriving DecidableEq, Repr

/-- One constraint emitted by `end_to_end_delay`.  For `end1` the meaning is
`x var_b - x var_a ≤ rhs` with `var_a` the first offset's variable and
`var_b` the last offset's variable; for `end2` it is `x var_a - x var_b ≥ rhs`
with `var_a` the first offset's variable and `var_b` the frame-distance
variable; for `end3` it is `x var_a + x var_b ≤ rhs` with `var_a` the last
offset's variable and `var_b` the frame-distance variable. -/
structure EndConstr where
  kind : EndCKind
  inst : Nat
  var_a : Nat
  var_b : Nat
  rhs : Int
deriving DecidableEq, Repr

/-- Satisfaction of one `end_to_end_delay` constraint by an assignment `x`
of integer values to solver variables. -/
def end_constr_sat (x : Nat → Int) (c : EndConstr) : Prop :=
  match c.kind with
  | .end1 => x c.var_b - x c.var_a ≤ c.rhs
  | .end2 => x c.var_a - x c.var_b ≥ c.rhs
  | .end3 => x c.var_a + x c.var_b ≤ c.rhs

/-- What `end_to_end_delay` reads from one path of a frame: the variable
handle of the first and of the last offset on the path for each instance,
those offsets' transmission durations, and the shared instance count.  For
a path of length one the first and the last offset are the same object, so
the two handle maps coincide. -/
structure EPath where
  first_var : Nat → Nat
  last_var : Nat → Nat
  first_time : Int
  last_time : Int
  instances : Nat

/-- What `end_to_end_delay` reads from one frame: its timing fields, its
frame-distance variable handle and its paths. -/
structure EFrame where
  frame : Frame
  frame_dis : Nat
  paths : List EPath

/-- `end_to_end_delay` of `Scheduler.c`: for every frame, every path and
every instance it emits, unconditionally, the end-to-end inequality
(`End_1`), the starting-time slack inequality (`End_2`) and the deadline
slack inequality (`End_3`), with the right-hand sides computed by the C
code.  There is no test on the frame's end-to-end value. -/
def end_to_end_delay (frames : List EFrame) : List EndConstr :=
  frames.flatMap
    (fun ef =>
      ef.paths.flatMap
        (fun p =>
          (List.range p.instances).flatMap
            (fun inst =>
              [{ kind := .end1, inst := inst, var_a := p.first_var inst,
                 var_b := p.last_var inst,
                 rhs := ef.frame.end_to_end_delay - p.first_time },
               { kind := .end2, inst := inst, var_a := p.first_var inst,
                 var_b := ef.frame_dis,
                 rhs := ef.frame.starting + (ef.frame.period * (inst : Int)) },
               { kind := .end3, inst := inst, var_a := p.last_var inst,
                 var_b := ef.frame_dis,
                 rhs := ef.frame.deadline + (ef.frame.period * (inst : Int)) -
                     p.last_time }])))

/-! ## Helper lemmas -/

/-- For positive arguments the subtractive `gcd` of `Network.c` computes the
mathematical greatest common divisor. -/
theorem cgcd_eq_gcd (a b : Nat) (ha : 0 < a) (hb : 0 < b) :
    cgcd a b = Nat.gcd a b := by
  unfold cgcd
  split
  · omega
  · split
    · rename_i hne heq
      subst heq
      exact (Nat.gcd_self a).symm
    · split
      · rename_i hne hneq hgt
        rw [cgcd_eq_gcd (a - b) b (by omega) hb]
        exact Nat.gcd_sub_self_left (by omega)
      · rename_i hne hneq hngt
        rw [cgcd_eq_gcd a (b - a) ha (by omega)]
        exact Nat.gcd_sub_self_right (by omega)
termination_by a + b
decreasing_by
  · omega
  · omega

/-- The code's raw duration with its `1`-floor equals `max 1` of the raw
division. -/
theorem time_frame_eq_max (size speed : Nat) :
    time_frame size speed = max 1 (size * 1000 / speed) := by
  simp only [time_frame]
  generalize size * 1000 / speed = t
  split <;> omega

/-- The branching fold of `prepare_network` (take the duration when the
running slot is `0`, the subtractive gcd otherwise) agrees with a plain
`Nat.gcd` fold, because every folded duration is positive. -/
theorem timeslot_fold_eq_gcd_fold (pairs : List (Nat × Nat)) :
    ∀ init : Nat,
      pairs.foldl
        (fun acc p =>
          let t := time_frame p.1 p.2
          if acc = 0 then t else cgcd acc t) init =
      (pairs.map (fun p => max 1 (p.1 * 1000 / p.2))).foldl Nat.gcd init := by
  induction pairs with
  | nil => intro init; rfl
  | cons p rest ih =>
    intro init
    have hpos : 0 < time_frame p.1 p.2 := by
      rw [time_frame_eq_max]; omega
    have hstep :
        (if init = 0 then time_frame p.1 p.2 else cgcd init (time_frame p.1 p.2)) =
          Nat.gcd init (max 1 (p.1 * 1000 / p.2)) := by
      rw [← time_frame_eq_max]
      by_cases h0 : init = 0
      · simp [h0]
      · rw [if_neg h0, cgcd_eq_gcd init _ (by omega) hpos]
    simp only [List.foldl_cons, List.map_cons]
    rw [← hstep, ih]

/-- Characterization of `prepare_network_timeslot` used by two claims: the
computed slot is the `Nat.gcd` fold of the `max 1` floored raw durations
over the initial slot, and preparation fails exactly when that fold is
zero. -/
theorem prepare_network_timeslot_eq (shp_period shp_time : Nat)
    (pairs : List (Nat × Nat)) :
    prepare_network_timeslot shp_period shp_time pairs =
      (let durations := pairs.map (fun p => max 1 (p.1 * 1000 / p.2))
       let ts := durations.foldl Nat.gcd (if shp_period ≠ 0 then shp_time else 0)
       if ts = 0 then none else some ts) := by
  simp only [prepare_network_timeslot]
  rw [timeslot_fold_eq_gcd_fold]

/-! ## Claim theorems -/

/-- C3: `check_schedule` is claimed to flag a violation exactly when two
transmissions' half-open intervals `[t, t + dur)` intersect.  The code does
not: the frame-versus-frame check subtracts one from both interval ends,
and the frame-versus-protocol check computes the frame's interval end as
`dur + dur` instead of `trans + dur`.  At the inputs below the half-open
intervals intersect but neither check reports a collision: frames at
`t = 0, dur = 10` and `t = 9, dur = 10` share slot `9`, and a frame at
`t = 520, dur = 10` lies inside the protocol reservation
`[500, 550)` (the specification's SHP-enforcement scenario with period 500
and duration 50). -/
theorem C3_overlap_check_misses_collisions :
    half_open_overlap 9 10 0 10 = true ∧
    frame_collision_check 9 10 0 10 = false ∧
    half_open_overlap 520 10 500 50 = true ∧
    protocol_collision_check 520 10 500 50 = false := by
  decide

/-- C2: after `init_offset_reservation` with an active protocol
(`max_link_id = 0`, hyperperiod `1000`, period `500`, duration `50`), the
frame holds one offset per link id with the reservation duration, but the
stored transmission-time cell of instance `1` is `-1`, not
`1 * period = 500`: the C loop stores `period * inst` and then immediately
overwrites the same cell with `-1` on the following line. -/
theorem C2_reservation_cell_not_period_multiple :
    ((init_offset_reservation 0 1000 500 50 (fun _ _ => 0)).length = 1) ∧
    ((init_offset_reservation 0 1000 500 50 (fun _ _ => 0)).map Offset.time = [50]) ∧
    ((init_offset_reservation 0 1000 500 50 (fun _ _ => 0)).map
        (fun o => o.offset 1 0) = [-1]) ∧
    ((-1 : Int) ≠ 1 * 500) := by
  refine ⟨rfl, rfl, rfl, by decide⟩

/-- C4 counterexample: the claimed raw-duration formula
`(size * 8 * 10^3) / speed` disagrees with the one `prepare_network`
computes, `(size * 10^3) / speed`, already at `size = 1000` bytes and
`speed = 1000` MB/s: the code yields `1000` ns, the claimed formula
`8000` ns. -/
theorem C4_counterexample_duration_formula :
    time_frame 1000 1000 = 1000 ∧ spec_raw_duration 1000 1000 = 8000 ∧
    time_frame 1000 1000 ≠ spec_raw_duration 1000 1000 := by
  refine ⟨rfl, rfl, by decide⟩

/-- C4 (amended): the raw per-(frame, link) duration is
`(size * 10^3) / speed` nanoseconds floored to at least `1` (no factor 8);
the global timeslot starts at the protocol duration when the protocol is
active and at `0` otherwise, every duration is folded into it by gcd with
`0` as identity (`Nat.gcd` has exactly that identity), and preparation
fails exactly when the resulting timeslot is `0`. -/
theorem C4_timeslot_model :
    ∀ (shp_period shp_time : Nat) (pairs : List (Nat × Nat)),
      (∀ size speed : Nat, time_frame size speed = max 1 (size * 1000 / speed)) ∧
      prepare_network_timeslot shp_period shp_time pairs =
        (let ts := (pairs.map (fun p => max 1 (p.1 * 1000 / p.2))).foldl Nat.gcd
          (if shp_period ≠ 0 then shp_time else 0)
         if ts = 0 then none else some ts) := by
  intro shp_period shp_time pairs
  exact ⟨time_frame_eq_max, prepare_network_timeslot_eq shp_period shp_time pairs⟩

/-- C6: with a zero end-to-end bound the end-to-end inequality is claimed
to be omitted.  `end_to_end_delay` of `Scheduler.c` emits it
unconditionally: for a frame with `end_to_end = 0`, starting time `0`,
period and deadline `1000`, one single-link path (so the first and the last
offset are the same object, variable `7`, duration `1`) and one instance,
the emitted set contains the `End_1` inequality with right-hand side
`0 - 1 = -1` — which no assignment can satisfy, since it reads
`x 7 - x 7 ≤ -1` — alongside the two slack constraints. -/
theorem C6_end_to_end_inequality_not_omitted :
    (⟨.end1, 0, 7, 7, -1⟩ : EndConstr) ∈
      end_to_end_delay [⟨⟨1, 1000, 1000, 0, 0⟩, 99,
        [⟨fun _ => 7, fun _ => 7, 1, 1, 1⟩]⟩] ∧
    (⟨.end2, 0, 7, 99, 0⟩ : EndConstr) ∈
      end_to_end_delay [⟨⟨1, 1000, 1000, 0, 0⟩, 99,
        [⟨fun _ => 7, fun _ => 7, 1, 1, 1⟩]⟩] ∧
    (⟨.end3, 0, 7, 99, 999⟩ : EndConstr) ∈
      end_to_end_delay [⟨⟨1, 1000, 1000, 0, 0⟩, 99,
        [⟨fun _ => 7, fun _ => 7, 1, 1, 1⟩]⟩] ∧
    ∀ x : Nat → Int, ¬ end_constr_sat x ⟨.end1, 0, 7, 7, -1⟩ := by
  refine ⟨?_, ?_, ?_, ?_⟩
  · simp [end_to_end_delay]
  · simp [end_to_end_delay]
  · simp [end_to_end_delay]
  · intro x h
    simp only [end_constr_sat] at h
    omega

/-- C8: the three timing setters of `Frame.c` fail exactly on the claimed
conditions, leave the frame unchanged when they fail, `set_deadline` maps a
zero deadline to the period, and `prepare_network` fails exactly when the
folded timeslot resolves to zero. -/
theorem C8_timing_validation :
    ∀ (f : Frame) (d s e : Int) (shp_period shp_time : Nat)
      (pairs : List (Nat × Nat)),
      (set_deadline f d =
        if d < 0 ∨ d > f.period then (f, false)
        else ({ f with deadline := if d = 0 then f.period else d }, true)) ∧
      (set_starting_time f s =
        if s < 0 ∨ s ≥ f.deadline then (f, false)
        else ({ f with starting := s }, true)) ∧
      (set_end_to_end f e =
        if e < 0 ∨ e ≥ f.deadline then (f, false)
        else ({ f with end_to_end_delay := e }, true)) ∧
      (prepare_network_timeslot shp_period shp_time pairs = none ↔
        (pairs.map (fun p => max 1 (p.1 * 1000 / p.2))).foldl Nat.gcd
          (if shp_period ≠ 0 then shp_time else 0) = 0) := by
  intro f d s e shp_period shp_time pairs
  refine ⟨?_, ?_, ?_, ?_⟩
  · simp only [set_deadline]
    by_cases h1 : d < 0
    · simp [h1]
    · by_cases h2 : d > f.period
      · simp [h1, h2]
      · by_cases h3 : d = 0 <;> simp [h1, h2, h3]
  · simp only [set_starting_time]
    by_cases h1 : s < 0
    · simp [h1]
    · by_cases h2 : s ≥ f.deadline
      · simp [h1, h2]
      · simp [h1, h2]
  · simp only [set_end_to_end]
    by_cases h1 : e < 0
    · simp [h1]
    · by_cases h2 : e ≥ f.deadline
      · simp [h1, h2]
      · simp [h1, h2]
  · rw [prepare_network_timeslot_eq]
    by_cases h : (pairs.map (fun p => max 1 (p.1 * 1000 / p.2))).foldl Nat.gcd
        (if shp_period ≠ 0 then shp_time else 0) = 0
    · simp [h]
    · simp [h]

/-- C10: `prepare_fixed_traffic` and `add_fixed_traffic` divide the
hyperperiod by the protocol period with no guard, so they are well-defined
exactly under the precondition that the Self-Healing Protocol is active:
with `period = 0` the modelled division guard fails (`none`), and with any
`period ≠ 0` it succeeds. -/
theorem C10_fixed_traffic_requires_active_protocol :
    ∀ (fixed : List (Int × List Int)) (fixedv : List (List Int))
      (hyperperiod period time : Int),
      ((prepare_fixed_traffic fixed hyperperiod period time).isSome ↔ period ≠ 0) ∧
      ((add_fixed_traffic fixedv hyperperiod period).isSome ↔ period ≠ 0) := by
  intro fixed fixedv hyperperiod period time
  constructor
  · simp only [prepare_fixed_traffic]
    by_cases h : period = 0
    · simp [h]
    · simp [h]
  · simp only [add_fixed_traffic]
    by_cases h : period = 0
    · simp [h]
    · simp [h]

/-- C5: for every normal frame, offset (link), instance and replica the
variable created by `create_offsets_variables` has lower bound
`start + i * period + r * dur` and upper bound
`deadline - dur + i * period - r * dur`, and every Self-Healing Protocol
reservation variable is pinned at `lb = ub = i * period` of the
reservation. -/
theorem C5_variable_domains :
    ∀ (frames : List FrameVars) (shp_period reservation_period : Int)
      (do_protocol : Bool) (shp_offsets : List Nat)
      (fi oi ii ri si sj : Nat)
      (h1 : fi < frames.length)
      (h2 : oi < (frames.get ⟨fi, h1⟩).offsets.length)
      (h3 : ii < ((frames.get ⟨fi, h1⟩).offsets.get ⟨oi, h2⟩).num_instances)
      (h4 : ri < ((frames.get ⟨fi, h1⟩).offsets.get ⟨oi, h2⟩).num_replicas)
      (h5 : si < (create_offsets_variables_shp shp_period do_protocol
          reservation_period shp_offsets).length)
      (h6 : sj < ((create_offsets_variables_shp shp_period do_protocol
          reservation_period shp_offsets).get ⟨si, h5⟩).length),
      (∃ (g1 : fi < (create_offsets_variables frames).length)
         (g2 : oi < ((create_offsets_variables frames).get ⟨fi, g1⟩).length)
         (g3 : ii < (((create_offsets_variables frames).get ⟨fi, g1⟩).get
             ⟨oi, g2⟩).length)
         (g4 : ri < ((((create_offsets_variables frames).get ⟨fi, g1⟩).get
             ⟨oi, g2⟩).get ⟨ii, g3⟩).length),
        (((((create_offsets_variables frames).get ⟨fi, g1⟩).get ⟨oi, g2⟩).get
            ⟨ii, g3⟩).get ⟨ri, g4⟩) =
          { lb := (frames.get ⟨fi, h1⟩).frame.starting +
                (ii : Int) * (frames.get ⟨fi, h1⟩).frame.period +
                (ri : Int) * ((frames.get ⟨fi, h1⟩).offsets.get ⟨oi, h2⟩).time
            ub := (frames.get ⟨fi, h1⟩).frame.deadline -
                ((frames.get ⟨fi, h1⟩).offsets.get ⟨oi, h2⟩).time +
                (ii : Int) * (frames.get ⟨fi, h1⟩).frame.period -
                (ri : Int) * ((frames.get ⟨fi, h1⟩).offsets.get ⟨oi, h2⟩).time }) ∧
      ((create_offsets_variables_shp shp_period do_protocol reservation_period
            shp_offsets).get ⟨si, h5⟩).get ⟨sj, h6⟩ =
        { lb := (sj : Int) * reservation_period
          ub := (sj : Int) * reservation_period } := by
  intro frames shp_period reservation_period do_protocol shp_offsets
  intro fi oi ii ri si sj h1 h2 h3 h4 h5 h6
  constructor
  · have g1 : fi < (create_offsets_variables frames).length := by
      simpa only [create_offsets_variables, List.length_map] using h1
    have g2 : oi < ((create_offsets_variables frames).get ⟨fi, g1⟩).length := by
      simpa only [create_offsets_variables, List.get_eq_getElem, List.getElem_map,
        List.length_map] using h2
    have g3 : ii < (((create_offsets_variables frames).get ⟨fi, g1⟩).get
        ⟨oi, g2⟩).length := by
      simpa only [create_offsets_variables, List.get_eq_getElem, List.getElem_map,
        List.length_map, List.length_range] using h3
    have g4 : ri < ((((create_offsets_variables frames).get ⟨fi, g1⟩).get
        ⟨oi, g2⟩).get ⟨ii, g3⟩).length := by
      simpa only [create_offsets_variables, List.get_eq_getElem, List.getElem_map,
        List.length_map, List.length_range, List.getElem_range] using h4
    refine ⟨g1, g2, g3, g4, ?_⟩
    simp only [create_offsets_variables, List.get_eq_getElem, List.getElem_map,
      List.getElem_range]
    simp only [offs_var, GVar.mk.injEq]
    constructor
    · ring
    · ring
  · by_cases hcond : shp_period ≠ 0 ∧ do_protocol = true
    · revert h5 h6
      unfold create_offsets_variables_shp
      rw [if_pos hcond]
      intro h5 h6
      simp [List.get_eq_getElem, List.getElem_map, List.getElem_range, shp_var]
    · revert h5
      unfold create_offsets_variables_shp
      rw [if_neg hcond]
      intro h5
      simp at h5

/-- C5 witness: one frame with starting time `0`, period and deadline `10`,
one offset of duration `2` with two instances and one replica; the variable
of instance `1`, replica `0` has bounds `lb = 0 + 1 * 10 + 0 * 2 = 10` and
`ub = 10 - 2 + 1 * 10 - 0 * 2 = 18`; with an active protocol of reservation
period `500` and one reservation offset of two instances, the variable of
instance `1` is pinned at `500`. -/
theorem C5_variable_domains_witness :
    (∃ (g1 : 0 < (create_offsets_variables [⟨⟨1, 10, 10, 0, 0⟩, [⟨2, 2, 1⟩]⟩]).length)
       (g2 : 0 < ((create_offsets_variables [⟨⟨1, 10, 10, 0, 0⟩,
           [⟨2, 2, 1⟩]⟩]).get ⟨0, g1⟩).length)
       (g3 : 1 < (((create_offsets_variables [⟨⟨1, 10, 10, 0, 0⟩,
           [⟨2, 2, 1⟩]⟩]).get ⟨0, g1⟩).get ⟨0, g2⟩).length)
       (g4 : 0 < ((((create_offsets_variables [⟨⟨1, 10, 10, 0, 0⟩,
           [⟨2, 2, 1⟩]⟩]).get ⟨0, g1⟩).get ⟨0, g2⟩).get ⟨1, g3⟩).length),
      ((((create_offsets_variables [⟨⟨1, 10, 10, 0, 0⟩,
          [⟨2, 2, 1⟩]⟩]).get ⟨0, g1⟩).get ⟨0, g2⟩).get ⟨1, g3⟩).get ⟨0, g4⟩ =
        { lb := 10, ub := 18 }) ∧
    (∃ (g5 : 0 < (create_offsets_variables_shp 500 true 500 [2]).length)
       (g6 : 1 < ((create_offsets_variables_shp 500 true 500 [2]).get ⟨0, g5⟩).length),
      ((create_offsets_variables_shp 500 true 500 [2]).get ⟨0, g5⟩).get ⟨1, g6⟩ =
        { lb := 500, ub := 500 }) := by
  have h := C5_variable_domains [⟨⟨1, 10, 10, 0, 0⟩, [⟨2, 2, 1⟩]⟩] 500 500 true [2]
    0 0 1 0 0 1 (by decide) (by decide) (by decide) (by decide) (by decide) (by decide)
  obtain ⟨⟨g1, g2, g3, g4, heq⟩, hshp⟩ := h
  constructor
  · exact ⟨g1, g2, g3, g4, by simpa using heq⟩
  · exact ⟨by decide, by decide, by simpa using hshp⟩

/-- C9: called with an empty occupied list, `allocate_offset_patch` returns
the single interval `[min, min + time_slots - 1]` as the new head — no
comparison with `max` happens — and leaves the offset matrix untouched;
when the list is non-empty at entry, any successful return has recorded a
start time into the matrix at the given instance. -/
theorem C9_empty_head_writes_no_offset :
    ∀ (cells : Nat → Int) (inst : Nat) (minv maxv time_slots : Int)
      (head : List LSTrans) (res : List LSTrans × (Nat → Int)),
      (allocate_offset_patch cells inst [] minv maxv time_slots =
        some ([⟨minv, minv + time_slots - 1⟩], cells)) ∧
      (head ≠ [] →
        allocate_offset_patch cells inst head minv maxv time_slots = some res →
        ∃ s, res.2 = Function.update cells inst s) := by
  intro cells inst minv maxv time_slots head res
  constructor
  · simp [allocate_offset_patch]
  · intro hne hres
    simp only [allocate_offset_patch, if_neg hne] at hres
    revert hres
    cases h : allocLoop time_slots minv maxv minv head with
    | none => intro hres; cases hres
    | some p =>
      intro hres
      refine ⟨p.2, ?_⟩
      cases p with
      | mk l s => cases hres; rfl

/-- C9 witness: at the concrete inputs `head = [(0, 5)]`, `min = 0`,
`max = 100`, `time_slots = 3`, the non-empty list hypothesis holds and the
successful result has the placement recorded at instance `0`. -/
theorem C9_empty_head_writes_no_offset_witness :
    ([⟨0, 5⟩] : List LSTrans) ≠ [] ∧
    ∃ s, (([⟨(0 : Int), 5⟩, ⟨6, 8⟩],
        Function.update (fun _ => (-1 : Int)) 0 6) : List LSTrans × (Nat → Int)).2 =
      Function.update (fun _ => (-1 : Int)) 0 s := by
  refine ⟨by decide, ?_⟩
  exact (C9_empty_head_writes_no_offset (fun _ => (-1 : Int)) 0 0 100 3
    [⟨0, 5⟩] ([⟨(0 : Int), 5⟩, ⟨6, 8⟩], Function.update (fun _ => (-1 : Int)) 0 6)).2
    (by decide) rfl

/-- The start `s` clears every occupied interval of the list that the
allocator does not skip: for every listed interval whose recorded `ending`
exceeds `min`, the candidate block `[s, s + time_slots)` either ends before
the interval's `starting` or begins after the interval's `ending`. -/
def occupied_free (l : List LSTrans) (minv time_slots s : Int) : Prop :=
  ∀ t ∈ l, minv < t.ending → (s + time_slots ≤ t.starting ∨ t.ending + 1 ≤ s)

/-- Greedy correctness of the allocator walk: on a list sorted by
`starting` with pairwise-disjoint well-formed intervals, starting from a
candidate `s` between `min` and `max` that sits at or below every
non-skipped interval's `ending + 1`, a successful walk returns the least
start `≥ s` that clears every non-skipped interval (and it is `≤ max`),
and a failing walk means no start in `[s, max]` clears them. -/
theorem allocLoop_greedy (time_slots minv maxv : Int) :
    ∀ (l : List LSTrans) (s : Int),
      l.Pairwise (fun a b => a.ending < b.starting) →
      (∀ t ∈ l, t.starting ≤ t.ending) →
      minv ≤ s → s ≤ maxv →
      (∀ t ∈ l, minv < t.ending → s ≤ t.ending + 1) →
      ((∀ res : List LSTrans × Int,
          allocLoop time_slots minv maxv s l = some res →
          s ≤ res.2 ∧ res.2 ≤ maxv ∧ occupied_free l minv time_slots res.2 ∧
          ∀ s2, s ≤ s2 → occupied_free l minv time_slots s2 → res.2 ≤ s2) ∧
       (allocLoop time_slots minv maxv s l = none →
          ∀ s2, s ≤ s2 → s2 ≤ maxv → ¬ occupied_free l minv time_slots s2)) := by
  intro l
  induction l with
  | nil =>
    intro s _ _ _ hsmax _
    constructor
    · intro res hres
      simp only [allocLoop, Option.some.injEq] at hres
      subst hres
      exact ⟨le_refl s, hsmax, fun t ht _ => absurd ht (List.not_mem_nil t),
        fun s2 hs2 _ => hs2⟩
    · intro hres
      simp only [allocLoop] at hres
      exact Option.noConfusion hres
  | cons node rest ih =>
    intro s hpw hwf hmins hsmax hgap
    have hwfn : node.starting ≤ node.ending :=
      hwf node (List.mem_cons_self node rest)
    have hhd : ∀ t ∈ rest, node.ending < t.starting :=
      (List.pairwise_cons.mp hpw).1
    have hpw' : rest.Pairwise (fun a b => a.ending < b.starting) :=
      (List.pairwise_cons.mp hpw).2
    have hwf' : ∀ t ∈ rest, t.starting ≤ t.ending :=
      fun t ht => hwf t (List.mem_cons_of_mem node ht)
    by_cases hfit : s + time_slots - 1 < node.starting
    · constructor
      · intro res hres
        rw [allocLoop, if_pos hfit] at hres
        injection hres with h
        subst h
        refine ⟨le_refl s, hsmax, ?_, fun s2 hs2 _ => hs2⟩
        intro t ht _
        rcases List.mem_cons.mp ht with h | h
        · subst h; left; omega
        · have := hhd t h
          left; omega
      · intro hres
        rw [allocLoop, if_pos hfit] at hres
        cases hres
    · by_cases hend : minv < node.ending
      · by_cases hover : maxv < node.ending + 1
        · constructor
          · intro res hres
            rw [allocLoop, if_neg hfit, if_pos hend, if_pos hover] at hres
            cases hres
          · intro _ s2 hs2 hs2max hfree
            rcases hfree node (List.mem_cons_self node rest) hend with h | h
            · omega
            · omega
        · have hmins1 : minv ≤ node.ending + 1 := by omega
          have hs1max : node.ending + 1 ≤ maxv := by omega
          have hgap1 : ∀ t ∈ rest, minv < t.ending → node.ending + 1 ≤ t.ending + 1 := by
            intro t ht _
            have h1 := hhd t ht
            have h2 := hwf' t ht
            omega
          have hss1 : s ≤ node.ending + 1 :=
            hgap node (List.mem_cons_self node rest) hend
          obtain ⟨ihsome, ihnone⟩ :=
            ih (node.ending + 1) hpw' hwf' hmins1 hs1max hgap1
          constructor
          · intro res hres
            rw [allocLoop, if_neg hfit, if_pos hend, if_neg hover] at hres
            cases hrec : allocLoop time_slots minv maxv (node.ending + 1) rest with
            | none => rw [hrec] at hres; cases hres
            | some p =>
              rw [hrec] at hres
              simp only [Option.map_some', Option.some.injEq] at hres
              subst hres
              obtain ⟨ha, hb, hc, hd⟩ := ihsome p hrec
              refine ⟨hss1.trans ha, hb, ?_, ?_⟩
              · intro t ht htend
                rcases List.mem_cons.mp ht with h | h
                · subst h; right; omega
                · exact hc t h htend
              · intro s2 hs2 hfree
                rcases hfree node (List.mem_cons_self node rest) hend with h | h
                · omega
                · exact hd s2 h
                    (fun t ht hh => hfree t (List.mem_cons_of_mem node ht) hh)
          · intro hres s2 hs2 hs2max hfree
            rw [allocLoop, if_neg hfit, if_pos hend, if_neg hover] at hres
            cases hrec : allocLoop time_slots minv maxv (node.ending + 1) rest with
            | some p => rw [hrec] at hres; cases hres
            | none =>
              rcases hfree node (List.mem_cons_self node rest) hend with h | h
              · omega
              · exact ihnone hrec s2 h hs2max
                  (fun t ht hh => hfree t (List.mem_cons_of_mem node ht) hh)
      · have hgap' : ∀ t ∈ rest, minv < t.ending → s ≤ t.ending + 1 :=
          fun t ht h => hgap t (List.mem_cons_of_mem node ht) h
        obtain ⟨ihsome, ihnone⟩ := ih s hpw' hwf' hmins hsmax hgap'
        constructor
        · intro res hres
          rw [allocLoop, if_neg hfit, if_neg hend] at hres
          cases hrec : allocLoop time_slots minv maxv s rest with
          | none => rw [hrec] at hres; cases hres
          | some p =>
            rw [hrec] at hres
            simp only [Option.map_some', Option.some.injEq] at hres
            subst hres
            obtain ⟨ha, hb, hc, hd⟩ := ihsome p hrec
            refine ⟨ha, hb, ?_, ?_⟩
            · intro t ht htend
              rcases List.mem_cons.mp ht with h | h
              · subst h; exact absurd htend hend
              · exact hc t h htend
            · intro s2 hs2 hfree
              exact hd s2 hs2
                (fun t ht hh => hfree t (List.mem_cons_of_mem node ht) hh)
        · intro hres s2 hs2 hs2max hfree
          rw [allocLoop, if_neg hfit, if_neg hend] at hres
          cases hrec : allocLoop time_slots minv maxv s rest with
          | some p => rw [hrec] at hres; cases hres
          | none =>
            exact ihnone hrec s2 hs2 hs2max
              (fun t ht hh => hfree t (List.mem_cons_of_mem node ht) hh)

/-- C1 counterexample: the specification's patch scenario — one fixed frame
at `t = 100, dur = 50`, the SHP reservation at `t = 0, dur = 20` (one
instance: hyperperiod `500`, protocol period `500`), a new frame with
`min = 0, max = 200, dur = 30` — is placed by the code at `t = 21`, not at
the claimed `t = 20`: `prepare_fixed_traffic` stores the reservation as
`(0, 20)` with `ending = t + dur`, and the allocator advances the candidate
to `ending + 1 = 21`. -/
theorem C1_counterexample_placement :
    (match prepare_fixed_traffic [(50, [100])] 500 500 20 with
      | some l =>
        (allocate_offset_patch (fun _ => -1) 0 l 0 200 30).map
          (fun p : List LSTrans × (Nat → Int) => p.2 0)
      | none => none) = some 21 ∧ (21 : Int) ≠ 20 := by
  constructor
  · rfl
  · decide

/-- C1 (amended): on a non-empty occupied list that is sorted by `starting`
with pairwise-disjoint well-formed intervals, and with `min ≤ max` for the
instance being placed, `allocate_offset_patch` places the transmission at
the smallest start `s ≥ min` whose block `[s, s + dur)` clears every listed
interval `(is, ie)` with `ie > min` (ends at or before `is`, or starts at
or after `ie + 1`), records that start in the offset cell of the instance,
and fails exactly when every such start exceeds `max`.  Because the fixed
intervals are stored with `ending = t + dur`, clearing an interval means
starting at `t + dur + 1`; hence the specification scenario is placed at
`t = 21` rather than `t = 20`. -/
theorem C1_patch_greedy :
    ∀ (cells : Nat → Int) (inst : Nat) (head : List LSTrans)
      (minv maxv time_slots : Int),
      head ≠ [] →
      head.Pairwise (fun a b => a.ending < b.starting) →
      (∀ t ∈ head, t.starting ≤ t.ending) →
      minv ≤ maxv →
      ((∀ res : List LSTrans × (Nat → Int),
          allocate_offset_patch cells inst head minv maxv time_slots = some res →
          minv ≤ res.2 inst ∧ res.2 inst ≤ maxv ∧
          occupied_free head minv time_slots (res.2 inst) ∧
          ∀ s2, minv ≤ s2 → occupied_free head minv time_slots s2 →
            res.2 inst ≤ s2) ∧
       (allocate_offset_patch cells inst head minv maxv time_slots = none →
          ∀ s2, minv ≤ s2 → s2 ≤ maxv →
            ¬ occupied_free head minv time_slots s2)) := by
  intro cells inst head minv maxv time_slots hne hpw hwf hminmax
  obtain ⟨hsome, hnone⟩ :=
    allocLoop_greedy time_slots minv maxv head minv hpw hwf (le_refl minv)
      hminmax (fun t _ h => by omega)
  constructor
  · intro res hres
    rw [allocate_offset_patch, if_neg hne] at hres
    revert hres
    cases hrec : allocLoop time_slots minv maxv minv head with
    | none => intro hres; cases hres
    | some p =>
      cases p with
      | mk l s =>
        intro hres
        obtain ⟨ha, hb, hc, hd⟩ := hsome (l, s) hrec
        have hres2 : res.2 = Function.update cells inst s := by
          cases hres; rfl
        rw [hres2, Function.update_same]
        exact ⟨ha, hb, hc, hd⟩
  · intro hres
    rw [allocate_offset_patch, if_neg hne] at hres
    revert hres
    cases hrec : allocLoop time_slots minv maxv minv head with
    | some p =>
      cases p with
      | mk l s => intro hres; cases hres
    | none =>
      intro _
      exact hnone hrec

/-- C1 witness: the specification scenario's occupied list
`[(0, 20), (100, 150)]` with `min = 0`, `max = 200`, `dur = 30` satisfies
the theorem's hypotheses, and the successful allocation records start `21`:
`0 ≤ 21 ≤ 200`, `21` clears both intervals, and every clearing start
`≥ 0` is at least `21`. -/
theorem C1_patch_greedy_witness :
    (0 : Int) ≤ 21 ∧ (21 : Int) ≤ 200 ∧
    occupied_free [⟨0, 20⟩, ⟨100, 150⟩] 0 30 21 ∧
    ∀ s2, (0 : Int) ≤ s2 → occupied_free [⟨0, 20⟩, ⟨100, 150⟩] 0 30 s2 →
      (21 : Int) ≤ s2 := by
  have h := (C1_patch_greedy (fun _ => -1) 0 [⟨0, 20⟩, ⟨100, 150⟩] 0 200 30
      (by decide) (by decide) (by decide) (by decide)).1
      ([⟨0, 20⟩, ⟨21, 50⟩, ⟨100, 150⟩], Function.update (fun _ => -1) 0 21) rfl
  simpa using h

/-! ### Invariants of the offset-graph builder -/

/-- Every offset object the builder has created has all of its `offset` and
`var_num` cells at the unset sentinel `-1`. -/
def all_cells_unset (st : FrameOffsets) : Prop :=
  ∀ o ∈ st.offset_it, (∀ a b : Nat, o.offset a b = -1) ∧
    (∀ a b : Nat, o.var_num a b = -1)

/-- Every hash entry points into the iteration list, at an object made for
exactly that link. -/
def hash_sound (st : FrameOffsets) : Prop :=
  ∀ l i, st.offset_hash l = some i →
    ∃ h : i < st.offset_it.length, (st.offset_it.get ⟨i, h⟩).link_id = l

/-- Every object of the iteration list is registered in the hash under its
own link id, at its own index. -/
def hash_complete (st : FrameOffsets) : Prop :=
  ∀ i (h : i < st.offset_it.length),
    st.offset_hash ((st.offset_it.get ⟨i, h⟩).link_id) = some i

/-- Every created object's link belongs to the given universe of links. -/
def links_from (univ : List Nat) (st : FrameOffsets) : Prop :=
  ∀ o ∈ st.offset_it, o.link_id ∈ univ

/-- A hash entry survives one builder step. -/
theorem init_offsets_step_hash_mono (n : Nat) (st : FrameOffsets) (k l i : Nat)
    (h : st.offset_hash l = some i) :
    (init_offsets_step n st k).1.offset_hash l = some i := by
  unfold init_offsets_step
  cases hk : st.offset_hash k with
  | some j => exact h
  | none =>
    by_cases hlk : l = k
    · subst hlk; rw [h] at hk; cases hk
    · simpa [hlk] using h

/-- After one builder step the stepped link's hash entry is the reference
the step returned. -/
theorem init_offsets_step_ref (n : Nat) (st : FrameOffsets) (k : Nat) :
    (init_offsets_step n st k).1.offset_hash k =
      some (init_offsets_step n st k).2 := by
  unfold init_offsets_step
  cases hk : st.offset_hash k with
  | some j => exact hk
  | none => simp

/-- One builder step preserves soundness of the hash. -/
theorem init_offsets_step_hash_sound (n : Nat) (st : FrameOffsets) (k : Nat)
    (hs : hash_sound st) (hc : hash_complete st) :
    hash_sound (init_offsets_step n st k).1 := by
  unfold init_offsets_step
  cases hk : st.offset_hash k with
  | some j => exact hs
  | none =>
    intro l i hl
    simp only at hl
    by_cases hlk : l = k
    · subst hlk
      rw [if_pos rfl] at hl
      injection hl with hl
      subst hl
      refine ⟨by simp, ?_⟩
      rw [List.get_eq_getElem,
        List.getElem_append_right (le_refl st.offset_it.length)]
      simp [new_offset]
    · rw [if_neg hlk] at hl
      obtain ⟨hlen, heq⟩ := hs l i hl
      refine ⟨by simp; omega, ?_⟩
      rw [List.get_eq_getElem, List.getElem_append_left hlen]
      exact heq

/-- One builder step preserves completeness of the hash. -/
theorem init_offsets_step_hash_complete (n : Nat) (st : FrameOffsets) (k : Nat)
    (hs : hash_sound st) (hc : hash_complete st) :
    hash_complete (init_offsets_step n st k).1 := by
  unfold init_offsets_step
  cases hk : st.offset_hash k with
  | some j => exact hc
  | none =>
    intro i h
    simp only [List.length_append, List.length_singleton] at h
    by_cases hi : i < st.offset_it.length
    · have hget : ((st.offset_it ++ [new_offset k n]).get
          ⟨i, by simp; omega⟩) = st.offset_it.get ⟨i, hi⟩ := by
        rw [List.get_eq_getElem, List.get_eq_getElem, List.getElem_append_left hi]
      simp only [hget]
      have hold := hc i hi
      have hne : (st.offset_it.get ⟨i, hi⟩).link_id ≠ k := by
        intro hcontra
        rw [hcontra] at hold
        rw [hold] at hk
        cases hk
      simp only [if_neg hne]
      exact hold
    · have hieq : i = st.offset_it.length := by omega
      subst hieq
      have hget : ((st.offset_it ++ [new_offset k n]).get
          ⟨st.offset_it.length, by simp⟩) = new_offset k n := by
        rw [List.get_eq_getElem,
          List.getElem_append_right (le_refl st.offset_it.length)]
        simp
      simp only [hget, new_offset]
      simp

/-- One builder step preserves the unset sentinel in every cell. -/
theorem init_offsets_step_cells (n : Nat) (st : FrameOffsets) (k : Nat)
    (hcells : all_cells_unset st) :
    all_cells_unset (init_offsets_step n st k).1 := by
  unfold init_offsets_step
  cases hk : st.offset_hash k with
  | some j => exact hcells
  | none =>
    intro o ho
    simp only [List.mem_append, List.mem_singleton] at ho
    rcases ho with ho | ho
    · exact hcells o ho
    · subst ho
      exact ⟨fun a b => rfl, fun a b => rfl⟩

/-- One builder step creates objects only for the stepped link. -/
theorem init_offsets_step_links (univ : List Nat) (n : Nat) (st : FrameOffsets)
    (k : Nat) (hk : k ∈ univ) (hl : links_from univ st) :
    links_from univ (init_offsets_step n st k).1 := by
  unfold init_offsets_step
  cases hkh : st.offset_hash k with
  | some j => exact hl
  | none =>
    intro o ho
    simp only [List.mem_append, List.mem_singleton] at ho
    rcases ho with ho | ho
    · exact hl o ho
    · subst ho
      exact hk

/-- Unfolding of the path fold with a non-empty accumulator. -/
theorem init_offsets_path_acc (n : Nat) :
    ∀ (path : List Nat) (st : FrameOffsets) (racc : List Nat),
      path.foldl
        (fun acc link_id =>
          let next := init_offsets_step n acc.1 link_id
          (next.1, acc.2 ++ [next.2])) (st, racc) =
      ((init_offsets_path n st path).1,
        racc ++ (init_offsets_path n st path).2) := by
  intro path
  induction path with
  | nil =>
    intro st racc
    simp [init_offsets_path]
  | cons k p ih =>
    intro st racc
    simp only [init_offsets_path, List.foldl_cons, List.nil_append]
    rw [ih, ih]
    simp

/-- Cons unfolding of `init_offsets_path`. -/
theorem init_offsets_path_cons (n : Nat) (st : FrameOffsets) (k : Nat)
    (p : List Nat) :
    init_offsets_path n st (k :: p) =
      ((init_offsets_path n (init_offsets_step n st k).1 p).1,
        (init_offsets_step n st k).2 ::
          (init_offsets_path n (init_offsets_step n st k).1 p).2) := by
  simp only [init_offsets_path, List.foldl_cons, List.nil_append]
  rw [init_offsets_path_acc]
  simp [init_offsets_path]

/-- A hash entry survives the processing of a whole path. -/
theorem init_offsets_path_hash_mono (n : Nat) :
    ∀ (p : List Nat) (st : FrameOffsets) (l i : Nat),
      st.offset_hash l = some i →
      (init_offsets_path n st p).1.offset_hash l = some i := by
  intro p
  induction p with
  | nil => intro st l i h; simpa [init_offsets_path] using h
  | cons k p ih =>
    intro st l i h
    rw [init_offsets_path_cons]
    exact ih _ l i (init_offsets_step_hash_mono n st k l i h)

/-- Processing a path preserves all builder invariants. -/
theorem init_offsets_path_inv (univ : List Nat) (n : Nat) :
    ∀ (p : List Nat) (st : FrameOffsets),
      (∀ l ∈ p, l ∈ univ) →
      hash_sound st → hash_complete st → all_cells_unset st →
      links_from univ st →
      hash_sound (init_offsets_path n st p).1 ∧
      hash_complete (init_offsets_path n st p).1 ∧
      all_cells_unset (init_offsets_path n st p).1 ∧
      links_from univ (init_offsets_path n st p).1 := by
  intro p
  induction p with
  | nil =>
    intro st _ h1 h2 h3 h4
    simpa [init_offsets_path] using ⟨h1, h2, h3, h4⟩
  | cons k p ih =>
    intro st hu h1 h2 h3 h4
    rw [init_offsets_path_cons]
    exact ih _ (fun l hl => hu l (List.mem_cons_of_mem k hl))
      (init_offsets_step_hash_sound n st k h1 h2)
      (init_offsets_step_hash_complete n st k h1 h2)
      (init_offsets_step_cells n st k h3)
      (init_offsets_step_links univ n st k (hu k (List.mem_cons_self k p)) h4)

/-- The references a path collects are the post-state hash entries of its
links, positionally. -/
theorem init_offsets_path_refs (n : Nat) :
    ∀ (p : List Nat) (st : FrameOffsets),
      (init_offsets_path n st p).2.length = p.length ∧
      ∀ (j : Nat) (hj : j < p.length)
        (hj2 : j < (init_offsets_path n st p).2.length),
        (init_offsets_path n st p).1.offset_hash (p.get ⟨j, hj⟩) =
          some ((init_offsets_path n st p).2.get ⟨j, hj2⟩) := by
  intro p
  induction p with
  | nil =>
    intro st
    refine ⟨by simp [init_offsets_path], ?_⟩
    intro j hj
    exact absurd hj (by simp)
  | cons k p ih =>
    intro st
    rw [init_offsets_path_cons]
    obtain ⟨ihlen, ihget⟩ := ih (init_offsets_step n st k).1
    refine ⟨by simpa using ihlen, ?_⟩
    intro j hj hj2
    cases j with
    | zero =>
      simp only [List.get_eq_getElem, List.getElem_cons_zero]
      exact init_offsets_path_hash_mono n p _ k _
        (init_offsets_step_ref n st k)
    | succ m =>
      simp only [List.get_eq_getElem, List.getElem_cons_succ]
      exact ihget m (by simpa using hj) (by simpa using hj2)

/-- After processing a path, every one of its links has a hash entry. -/
theorem init_offsets_path_coverage (n : Nat) :
    ∀ (p : List Nat) (st : FrameOffsets) (l : Nat), l ∈ p →
      ∃ i, (init_offsets_path n st p).1.offset_hash l = some i := by
  intro p
  induction p with
  | nil => intro st l hl; exact absurd hl (List.not_mem_nil l)
  | cons k p ih =>
    intro st l hl
    rw [init_offsets_path_cons]
    rcases List.mem_cons.mp hl with h | h
    · subst h
      exact ⟨(init_offsets_step n st l).2,
        init_offsets_path_hash_mono n p _ l _ (init_offsets_step_ref n st l)⟩
    · exact ih _ l h

/-- Unfolding of the outer fold with a non-empty accumulator. -/
theorem init_offsets_go_acc (n : Nat) :
    ∀ (paths : List (List Nat)) (st : FrameOffsets) (racc : List (List Nat)),
      paths.foldl
        (fun acc path =>
          let next := init_offsets_path n acc.1 path
          (next.1, acc.2 ++ [next.2])) (st, racc) =
      ((init_offsets_go n st paths).1, racc ++ (init_offsets_go n st paths).2) := by
  intro paths
  induction paths with
  | nil =>
    intro st racc
    simp [init_offsets_go]
  | cons p ps ih =>
    intro st racc
    simp only [init_offsets_go, List.foldl_cons, List.nil_append]
    rw [ih, ih]
    simp

/-- Cons unfolding of `init_offsets_go`. -/
theorem init_offsets_go_cons (n : Nat) (st : FrameOffsets) (p : List Nat)
    (ps : List (List Nat)) :
    init_offsets_go n st (p :: ps) =
      ((init_offsets_go n (init_offsets_path n st p).1 ps).1,
        (init_offsets_path n st p).2 ::
          (init_offsets_go n (init_offsets_path n st p).1 ps).2) := by
  simp only [init_offsets_go, List.foldl_cons, List.nil_append]
  rw [init_offsets_go_acc]
  simp [init_offsets_go]

/-- A hash entry survives the processing of all paths. -/
theorem init_offsets_go_hash_mono (n : Nat) :
    ∀ (paths : List (List Nat)) (st : FrameOffsets) (l i : Nat),
      st.offset_hash l = some i →
      (init_offsets_go n st paths).1.offset_hash l = some i := by
  intro paths
  induction paths with
  | nil => intro st l i h; simpa [init_offsets_go] using h
  | cons p ps ih =>
    intro st l i h
    rw [init_offsets_go_cons]
    exact ih _ l i (init_offsets_path_hash_mono n p st l i h)

/-- Processing all paths preserves all builder invariants. -/
theorem init_offsets_go_inv (univ : List Nat) (n : Nat) :
    ∀ (paths : List (List Nat)) (st : FrameOffsets),
      (∀ p ∈ paths, ∀ l ∈ p, l ∈ univ) →
      hash_sound st → hash_complete st → all_cells_unset st →
      links_from univ st →
      hash_sound (init_offsets_go n st paths).1 ∧
      hash_complete (init_offsets_go n st paths).1 ∧
      all_cells_unset (init_offsets_go n st paths).1 ∧
      links_from univ (init_offsets_go n st paths).1 := by
  intro paths
  induction paths with
  | nil =>
    intro st _ h1 h2 h3 h4
    simpa [init_offsets_go] using ⟨h1, h2, h3, h4⟩
  | cons p ps ih =>
    intro st hu h1 h2 h3 h4
    rw [init_offsets_go_cons]
    obtain ⟨g1, g2, g3, g4⟩ :=
      init_offsets_path_inv univ n p st (hu p (List.mem_cons_self p ps)) h1 h2 h3 h4
    exact ih _ (fun q hq l hl => hu q (List.mem_cons_of_mem p hq) l hl) g1 g2 g3 g4

/-- The collected reference lists are positionally correct against the
final hash: entry `j` of path `pi`'s reference list is the final hash
entry of that path's `j`-th link. -/
theorem init_offsets_go_refs (n : Nat) :
    ∀ (paths : List (List Nat)) (st : FrameOffsets),
      (init_offsets_go n st paths).2.length = paths.length ∧
      ∀ (pi : Nat) (hpi : pi < paths.length)
        (hpi2 : pi < (init_offsets_go n st paths).2.length)
        (j : Nat) (hj : j < (paths.get ⟨pi, hpi⟩).length)
        (hj2 : j < ((init_offsets_go n st paths).2.get ⟨pi, hpi2⟩).length),
        (init_offsets_go n st paths).1.offset_hash
            ((paths.get ⟨pi, hpi⟩).get ⟨j, hj⟩) =
          some (((init_offsets_go n st paths).2.get ⟨pi, hpi2⟩).get ⟨j, hj2⟩) := by
  intro paths
  induction paths with
  | nil =>
    intro st
    refine ⟨by simp [init_offsets_go], ?_⟩
    intro pi hpi
    exact absurd hpi (by simp)
  | cons p ps ih =>
    intro st
    rw [init_offsets_go_cons]
    obtain ⟨ihlen, ihget⟩ := ih (init_offsets_path n st p).1
    refine ⟨by simpa using ihlen, ?_⟩
    intro pi hpi hpi2 j hj hj2
    cases pi with
    | zero =>
      simp only [List.get_eq_getElem, List.getElem_cons_zero] at hj hj2 ⊢
      obtain ⟨rlen, rget⟩ := init_offsets_path_refs n p st
      exact init_offsets_go_hash_mono n ps _ _ _ (rget j hj hj2)
    | succ m =>
      simp only [List.get_eq_getElem, List.getElem_cons_succ] at hj hj2 ⊢
      exact ihget m (by simpa using hpi) (by simpa using hpi2) j hj hj2

/-- After processing all paths, every used link has a hash entry. -/
theorem init_offsets_go_coverage (n : Nat) :
    ∀ (paths : List (List Nat)) (st : FrameOffsets) (l : Nat),
      (∃ p ∈ paths, l ∈ p) →
      ∃ i, (init_offsets_go n st paths).1.offset_hash l = some i := by
  intro paths
  induction paths with
  | nil =>
    intro st l hl
    obtain ⟨p, hp, _⟩ := hl
    exact absurd hp (List.not_mem_nil p)
  | cons p ps ih =>
    intro st l hl
    rw [init_offsets_go_cons]
    obtain ⟨q, hq, hlq⟩ := hl
    rcases List.mem_cons.mp hq with h | h
    · subst h
      obtain ⟨i, hi⟩ := init_offsets_path_coverage n q st l hlq
      exact ⟨i, init_offsets_go_hash_mono n ps _ l i hi⟩
    · exact ih _ l ⟨q, h, hlq⟩

/-- C7: after `init_offsets`, two path positions that name the same link
hold the same reference (one shared offset object); the iteration list has
one entry per distinct link used by the frame (its link ids are
duplicate-free and are exactly the links occurring on some path); and
every freshly created offset cell — both `offset` and `var_num` — holds
the unset sentinel `-1`. -/
theorem C7_offset_graph_sharing :
    ∀ (paths : List (List Nat)) (hyperperiod period : Int)
      (pi1 pi2 j1 j2 : Nat)
      (hp1 : pi1 < paths.length) (hp2 : pi2 < paths.length)
      (hj1 : j1 < (paths.get ⟨pi1, hp1⟩).length)
      (hj2 : j2 < (paths.get ⟨pi2, hp2⟩).length)
      (hr1 : pi1 < (init_offsets paths hyperperiod period).2.length)
      (hr2 : pi2 < (init_offsets paths hyperperiod period).2.length)
      (hs1 : j1 < ((init_offsets paths hyperperiod period).2.get ⟨pi1, hr1⟩).length)
      (hs2 : j2 < ((init_offsets paths hyperperiod period).2.get ⟨pi2, hr2⟩).length),
      ((paths.get ⟨pi1, hp1⟩).get ⟨j1, hj1⟩ = (paths.get ⟨pi2, hp2⟩).get ⟨j2, hj2⟩ →
        ((init_offsets paths hyperperiod period).2.get ⟨pi1, hr1⟩).get ⟨j1, hs1⟩ =
          ((init_offsets paths hyperperiod period).2.get ⟨pi2, hr2⟩).get ⟨j2, hs2⟩) ∧
      ((init_offsets paths hyperperiod period).1.offset_it.map Offset.link_id).Nodup ∧
      (∀ l, l ∈ (init_offsets paths hyperperiod period).1.offset_it.map
          Offset.link_id ↔ ∃ p ∈ paths, l ∈ p) ∧
      (∀ o ∈ (init_offsets paths hyperperiod period).1.offset_it,
        (∀ a b : Nat, o.offset a b = -1) ∧ (∀ a b : Nat, o.var_num a b = -1)) := by
  intro paths hyperperiod period pi1 pi2 j1 j2 hp1 hp2 hj1 hj2 hr1 hr2 hs1 hs2
  set n := (hyperperiod / period).toNat with hn
  have hinit1 : hash_sound (⟨[], fun _ => none⟩ : FrameOffsets) := by
    intro l i h; cases h
  have hinit2 : hash_complete (⟨[], fun _ => none⟩ : FrameOffsets) := by
    intro i h; exact absurd h (by simp)
  have hinit3 : all_cells_unset (⟨[], fun _ => none⟩ : FrameOffsets) := by
    intro o ho; exact absurd ho (List.not_mem_nil o)
  have hinit4 : links_from (paths.flatMap id) (⟨[], fun _ => none⟩ : FrameOffsets) := by
    intro o ho; exact absurd ho (List.not_mem_nil o)
  obtain ⟨hsound, hcomplete, hcells, hlinks⟩ :=
    init_offsets_go_inv (paths.flatMap id) n paths ⟨[], fun _ => none⟩
      (fun p hp l hl => List.mem_flatMap.mpr ⟨p, hp, hl⟩)
      hinit1 hinit2 hinit3 hinit4
  obtain ⟨hreflen, hrefget⟩ := init_offsets_go_refs n paths ⟨[], fun _ => none⟩
  refine ⟨?_, ?_, ?_, ?_⟩
  · intro heq
    have h1 := hrefget pi1 hp1 hr1 j1 hj1 hs1
    have h2 := hrefget pi2 hp2 hr2 j2 hj2 hs2
    rw [heq] at h1
    rw [h1] at h2
    exact (Option.some.injEq _ _).mp h2
  · rw [List.nodup_iff_injective_get]
    intro a b hab
    have ha := hcomplete a.val (by simpa using a.isLt)
    have hb := hcomplete b.val (by simpa using b.isLt)
    have hab2 : ((init_offsets_go n ⟨[], fun _ => none⟩ paths).1.offset_it.get
        ⟨a.val, by simpa using a.isLt⟩).link_id =
        ((init_offsets_go n ⟨[], fun _ => none⟩ paths).1.offset_it.get
          ⟨b.val, by simpa using b.isLt⟩).link_id := by
      simpa [List.get_eq_getElem] using hab
    rw [hab2] at ha
    rw [ha] at hb
    have hv : a.val = b.val := (Option.some.injEq _ _).mp hb
    exact Fin.ext (by simpa using hv)
  · intro l
    constructor
    · intro hl
      obtain ⟨o, ho, hol⟩ := List.mem_map.mp hl
      have := hlinks o ho
      rw [hol] at this
      exact List.mem_flatMap.mp this
    · intro hl
      obtain ⟨i, hi⟩ := init_offsets_go_coverage n paths ⟨[], fun _ => none⟩ l hl
      obtain ⟨hlen, heq⟩ := hsound l i hi
      exact List.mem_map.mpr
        ⟨(init_offsets paths hyperperiod period).1.offset_it.get ⟨i, hlen⟩,
          List.get_mem _ _ _, heq⟩
  · exact hcells

/-- C7 witness: for the paths `[[0, 1], [1, 0]]` the two positions naming
link `1` (path `0` position `1` and path `1` position `0`) share one
reference, the iteration list carries the two distinct links `0` and `1`,
and all created cells are `-1` (checked here on instance `0`, replica `0`
of each object). -/
theorem C7_offset_graph_sharing_witness :
    ((([[0, 1], [1, 0]] : List (List Nat)).get
        ⟨0, by decide⟩).get ⟨1, by decide⟩ =
      (([[0, 1], [1, 0]] : List (List Nat)).get ⟨1, by decide⟩).get
        ⟨0, by decide⟩) ∧
    (((init_offsets [[0, 1], [1, 0]] 1000 500).2.get ⟨0, by decide⟩).get
        ⟨1, by decide⟩ =
      ((init_offsets [[0, 1], [1, 0]] 1000 500).2.get ⟨1, by decide⟩).get
        ⟨0, by decide⟩) ∧
    ((init_offsets [[0, 1], [1, 0]] 1000 500).1.offset_it.map
        Offset.link_id).Nodup ∧
    (∀ o ∈ (init_offsets [[0, 1], [1, 0]] 1000 500).1.offset_it,
      o.offset 0 0 = -1 ∧ o.var_num 0 0 = -1) := by
  have h := C7_offset_graph_sharing [[0, 1], [1, 0]] 1000 500 0 1 1 0
    (by decide) (by decide) (by decide) (by decide)
    (by decide) (by decide) (by decide) (by decide)
  obtain ⟨hshare, hnodup, _, hcells⟩ := h
  refine ⟨by decide, hshare (by decide), hnodup, ?_⟩
  intro o ho
  obtain ⟨hoff, hvar⟩ := hcells o ho
  exact ⟨hoff 0 0, hvar 0 0⟩

end SHPScheduler
